import Mathlib

/-!
Verification development for the BCI (Bias-Coherence Index) validation
pipeline: a shallow embedding of `03_calculate_bci.py` (scoring engine and
record matching/filtering) and `04_validation.py` (partial correlation,
per-storm summaries, baseline high-error labelling), with theorems settling
the specification's claims about them.

Floating-point values are idealised: tabular data are rationals (every IEEE
double is a rational), aggregate statistics that involve a square root live
in `ℝ`.  Where a claim hinges on NaN propagation of the numpy code, a second,
NaN-aware model (`Option`-valued) is used and is clearly marked as such.
-/

namespace BciVal

/-- `np.mean` of a list of rationals: sum divided by length.  On the empty
list the Lean convention `q / 0 = 0` applies (numpy yields NaN there; every
use below is either guarded by nonemptiness or handled by the NaN-aware
model `calculate_bciF`). -/
def qmean (l : List ℚ) : ℚ := l.sum / l.length

/-- Population variance: the square of `np.std` (numpy default `ddof = 0`),
namely the mean of squared deviations from the mean. -/
def qvariance (l : List ℚ) : ℚ := ((l.map (fun x => (x - qmean l) ^ 2)).sum) / l.length

/-- `np.std`: square root of the population variance. -/
noncomputable def npstd (l : List ℚ) : ℝ := Real.sqrt (qvariance l)

/-- `np.clip(x, lo, hi)`, which numpy documents as
`np.minimum(hi, np.maximum(x, lo))`. -/
noncomputable def clip (x lo hi : ℝ) : ℝ := min hi (max x lo)

/-- Lines 36-39 of `03_calculate_bci.py`: the fraction of members whose bias
lies strictly on the majority side of zero,
`max(np.sum(biases > 0), np.sum(biases < 0)) / len(biases)`.
Zero biases count toward neither side. -/
def directional_agreement (biases : List ℚ) : ℚ :=
  (max ((biases.filter (fun b => 0 < b)).length) ((biases.filter (fun b => b < 0)).length) : ℚ)
    / biases.length

/-- Lines 41-49 of `03_calculate_bci.py`: magnitude consistency of the biases.
If `|mean(biases)| > 0.01` it is `1 / (1 + cv)` with
`cv = std(biases) / |mean(biases)|`; otherwise the fixed default `0.8`. -/
noncomputable def magnitude_consistency (biases : List ℚ) : ℝ :=
  if (0.01 : ℚ) < |qmean biases| then
    1 / (1 + npstd biases / ((|qmean biases| : ℚ) : ℝ))
  else 0.8

/-- Lines 52-53 of `03_calculate_bci.py`: the combination step of phi,
`np.clip(0.5 * directional_agreement + 0.5 * magnitude_consistency, 0.3, 1.0)`. -/
noncomputable def phi_combine (d m : ℝ) : ℝ := clip (0.5 * d + 0.5 * m) 0.3 1

/-- Lines 16-55 of `03_calculate_bci.py`: the phi component, the combination
of directional agreement and magnitude consistency of the member biases
`member - observation`. -/
noncomputable def calculate_bci_component_phi (members : List ℚ) (observation : ℚ) : ℝ :=
  let biases := members.map (fun m => m - observation)
  phi_combine ((directional_agreement biases : ℚ) : ℝ) (magnitude_consistency biases)

/-- Lines 57-82 of `03_calculate_bci.py`: the rho component.  The
spread-skill proxy is `min(spread / error, 1.0)` when `error > 0.1` and
`1.0` otherwise, clipped to `[0.3, 1.0]`. -/
noncomputable def calculate_bci_component_rho (spread error : ℝ) : ℝ :=
  clip (if (0.1 : ℝ) < error then min (spread / error) 1 else 1) 0.3 1

/-- Lines 84-122 of `03_calculate_bci.py`: the full score
`(bci, phi, rho)`.  `spread`/`error` default (argument `none`, Python
`None`) to `np.std(members)` and `np.abs(np.mean(members) - observation)`;
`bci = np.sqrt(phi * rho)`. -/
noncomputable def calculate_bci (members : List ℚ) (observation : ℚ)
    (spread error : Option ℚ) : ℝ × ℝ × ℝ :=
  let phi := calculate_bci_component_phi members observation
  let s : ℝ := match spread with
    | some v => (v : ℝ)
    | none => npstd members
  let e : ℝ := match error with
    | some v => (v : ℝ)
    | none => ((|qmean members - observation| : ℚ) : ℝ)
  let rho := calculate_bci_component_rho s e
  (Real.sqrt (phi * rho), phi, rho)

-- Scratch check (spec §8 scenario): members [1,2,3,4], observation 2.5.
example : calculate_bci_component_phi [1, 2, 3, 4] (5 / 2) = 0.65 := by
  have hda : directional_agreement ([1, 2, 3, 4].map (fun m => m - (5 / 2 : ℚ)))
      = 1 / 2 := by
    simp [directional_agreement, List.filter]
    norm_num
  have hm : qmean ([1, 2, 3, 4].map (fun m => m - (5 / 2 : ℚ))) = 0 := by
    simp [qmean]
    norm_num
  simp only [calculate_bci_component_phi, magnitude_consistency, hda, hm]
  norm_num [phi_combine, clip]

-- Scratch check (spec §8 second scenario): all members 5.0, observation
-- 5.0: zero spread and error, all biases zero, phi = 0.4, rho = 1,
-- BCI = sqrt 0.4.
example : calculate_bci [5, 5, 5, 5] 5 Option.none Option.none =
    (Real.sqrt 0.4, 0.4, 1) := by
  have hda : directional_agreement ([5, 5, 5, 5].map (fun m => m - (5 : ℚ))) = 0 := by
    simp [directional_agreement, List.filter]
  have hm : qmean ([5, 5, 5, 5].map (fun m => m - (5 : ℚ))) = 0 := by
    norm_num [qmean]
  have hvar : qvariance [5, 5, 5, 5] = 0 := by
    norm_num [qvariance, qmean]
  have hqm : qmean [5, 5, 5, 5] = 5 := by norm_num [qmean]
  simp only [calculate_bci, calculate_bci_component_phi, phi_combine,
    magnitude_consistency, hda, hm, npstd, hvar, hqm]
  norm_num [calculate_bci_component_rho, clip, Real.sqrt_zero, max_def, min_def]

/-- Both clip bounds used by the scoring engine. -/
lemma clip_mem (x : ℝ) : (0.3 : ℝ) ≤ clip x 0.3 1 ∧ clip x 0.3 1 ≤ 1 :=
  ⟨le_min (by norm_num) (le_max_right _ _), min_le_left _ _⟩

/-- The geometric mean of two values of `[0.3, 1]` stays in `[0.3, 1]`. -/
lemma sqrt_mul_mem (p r : ℝ) (hp : (0.3 : ℝ) ≤ p) (hp1 : p ≤ 1)
    (hr : (0.3 : ℝ) ≤ r) (hr1 : r ≤ 1) :
    (0.3 : ℝ) ≤ Real.sqrt (p * r) ∧ Real.sqrt (p * r) ≤ 1 := by
  constructor
  · have h09 : (0.09 : ℝ) ≤ p * r := by nlinarith
    have := Real.sqrt_le_sqrt h09
    calc (0.3 : ℝ) = Real.sqrt 0.09 := by
          rw [show (0.09 : ℝ) = 0.3 ^ 2 by norm_num, Real.sqrt_sq (by norm_num)]
      _ ≤ Real.sqrt (p * r) := this
  · exact Real.sqrt_le_one.mpr (by nlinarith)

/-- C1: for every non-empty member sequence, every observation and any
supplied spread/error, `calculate_bci` returns `phi ∈ [0.3, 1]`,
`rho ∈ [0.3, 1]`, `BCI ∈ [0.3, 1]`, and `BCI = Real.sqrt (phi * rho)`
exactly. -/
theorem C1_score_bounds (members : List ℚ) (observation : ℚ) (spread error : Option ℚ)
    (_hne : members ≠ []) :
    (0.3 : ℝ) ≤ (calculate_bci members observation spread error).2.1 ∧
      (calculate_bci members observation spread error).2.1 ≤ 1 ∧
      (0.3 : ℝ) ≤ (calculate_bci members observation spread error).2.2 ∧
      (calculate_bci members observation spread error).2.2 ≤ 1 ∧
      (0.3 : ℝ) ≤ (calculate_bci members observation spread error).1 ∧
      (calculate_bci members observation spread error).1 ≤ 1 ∧
      (calculate_bci members observation spread error).1 =
        Real.sqrt ((calculate_bci members observation spread error).2.1 *
          (calculate_bci members observation spread error).2.2) := by
  have hphi := clip_mem (0.5 * ((directional_agreement
      (members.map (fun m => m - observation)) : ℚ) : ℝ) +
    0.5 * magnitude_consistency (members.map (fun m => m - observation)))
  simp only [calculate_bci, calculate_bci_component_phi, phi_combine,
    calculate_bci_component_rho]
  rcases hphi with ⟨hp, hp1⟩
  constructor
  · exact hp
  constructor
  · exact hp1
  rcases clip_mem (if (0.1 : ℝ) < (match error with
      | some v => (v : ℝ)
      | none => ((|qmean members - observation| : ℚ) : ℝ)) then
      min ((match spread with
        | some v => (v : ℝ)
        | none => npstd members) / (match error with
        | some v => (v : ℝ)
        | none => ((|qmean members - observation| : ℚ) : ℝ))) 1 else 1) with ⟨hr, hr1⟩
  refine ⟨hr, hr1, ?_, ?_, by trivial⟩
  · exact (sqrt_mul_mem _ _ hp hp1 hr hr1).1
  · exact (sqrt_mul_mem _ _ hp hp1 hr hr1).2

/-- Witness for C1 at members `[2]`, observation `1`, no supplied
spread/error. -/
theorem C1_score_bounds_witness :
    (0.3 : ℝ) ≤ (calculate_bci [2] 1 Option.none Option.none).2.1 ∧
      (calculate_bci [2] 1 Option.none Option.none).2.1 ≤ 1 ∧
      (0.3 : ℝ) ≤ (calculate_bci [2] 1 Option.none Option.none).2.2 ∧
      (calculate_bci [2] 1 Option.none Option.none).2.2 ≤ 1 ∧
      (0.3 : ℝ) ≤ (calculate_bci [2] 1 Option.none Option.none).1 ∧
      (calculate_bci [2] 1 Option.none Option.none).1 ≤ 1 ∧
      (calculate_bci [2] 1 Option.none Option.none).1 =
        Real.sqrt ((calculate_bci [2] 1 Option.none Option.none).2.1 *
          (calculate_bci [2] 1 Option.none Option.none).2.2) :=
  C1_score_bounds [2] 1 Option.none Option.none (by simp)

/-- C2: degenerate numeric cases take the fixed fallbacks: `error ≤ 0.1`
forces `rho = 1` for every spread, and a member sequence whose absolute
mean bias is at most `0.01` gets magnitude consistency exactly `0.8`
(otherwise `1 / (1 + bias_std / bias_mean)`). -/
theorem C2_degenerate_fallbacks :
    (∀ spread error : ℝ, error ≤ 0.1 → calculate_bci_component_rho spread error = 1) ∧
      (∀ (members : List ℚ) (observation : ℚ),
        |qmean (members.map (fun m => m - observation))| ≤ 0.01 →
          magnitude_consistency (members.map (fun m => m - observation)) = 0.8) ∧
      (∀ (members : List ℚ) (observation : ℚ),
        (0.01 : ℚ) < |qmean (members.map (fun m => m - observation))| →
          magnitude_consistency (members.map (fun m => m - observation)) =
            1 / (1 + npstd (members.map (fun m => m - observation)) /
              ((|qmean (members.map (fun m => m - observation))| : ℚ) : ℝ))) := by
  refine ⟨fun spread error he => ?_, fun members observation hm => ?_,
    fun members observation hm => ?_⟩
  · rw [calculate_bci_component_rho, if_neg (by linarith)]
    norm_num [clip]
  · rw [magnitude_consistency, if_neg (by exact not_lt.mpr hm)]
  · rw [magnitude_consistency, if_pos hm]

/-- Witness for C2: rho at spread 5, error 0.05; magnitude consistency of
`[1, 2, 3, 4]` against observation `2.5` (mean bias 0) and of `[0, 2]`
against observation `0` (mean bias 1). -/
theorem C2_degenerate_fallbacks_witness :
    calculate_bci_component_rho 5 0.05 = 1 ∧
      magnitude_consistency ([1, 2, 3, 4].map (fun m => m - (5 / 2 : ℚ))) = 0.8 ∧
      magnitude_consistency ([0, 2].map (fun m => m - (0 : ℚ))) =
        1 / (1 + npstd ([0, 2].map (fun m => m - (0 : ℚ))) /
          ((|qmean ([0, 2].map (fun m => m - (0 : ℚ)))| : ℚ) : ℝ)) := by
  refine ⟨C2_degenerate_fallbacks.1 5 0.05 (by norm_num),
    C2_degenerate_fallbacks.2.1 [1, 2, 3, 4] (5 / 2) ?_,
    C2_degenerate_fallbacks.2.2 [0, 2] 0 ?_⟩
  · have : qmean ([1, 2, 3, 4].map (fun m => m - (5 / 2 : ℚ))) = 0 := by
      norm_num [qmean]
    rw [this]; norm_num
  · have : qmean ([0, 2].map (fun m => m - (0 : ℚ))) = 1 := by
      norm_num [qmean]
    rw [this]; norm_num

/-- C8 counterexample: with magnitude consistency `0.1` held fixed, raising
the directional agreement from `0.1` to `0.2` leaves phi at the lower clip
`0.3`, yet `phi ≠ 1`: the claimed strict increase fails below the `0.3`
clip. -/
theorem C8_counterexample :
    (0.1 : ℝ) < 0.2 ∧ phi_combine 0.1 0.1 ≠ 1 ∧
      ¬ phi_combine 0.1 0.1 < phi_combine 0.2 0.1 := by
  have h1 : phi_combine 0.1 0.1 = 0.3 := by
    rw [phi_combine, clip]
    rw [max_eq_right (by norm_num), min_eq_right (by norm_num)]
  have h2 : phi_combine 0.2 0.1 = 0.3 := by
    rw [phi_combine, clip]
    rw [max_eq_right (by norm_num), min_eq_right (by norm_num)]
  refine ⟨by norm_num, ?_, ?_⟩
  · rw [h1]; norm_num
  · rw [h1, h2]; norm_num

/-- C8 (amended): with the magnitude-consistency term held fixed, phi is
strictly increasing in directional agreement strictly between the clips:
`d1 < d2` gives `phi_combine d1 m < phi_combine d2 m` provided
`phi_combine d1 m` is not already at the upper clip `1.0` and
`phi_combine d2 m` is not at the lower clip `0.3`. -/
theorem C8_phi_strict_mono (d1 d2 m : ℝ) (hd : d1 < d2)
    (h1 : phi_combine d1 m ≠ 1) (h2 : phi_combine d2 m ≠ 0.3) :
    phi_combine d1 m < phi_combine d2 m := by
  rw [phi_combine, clip] at *
  set r1 := 0.5 * d1 + 0.5 * m with hr1
  set r2 := 0.5 * d2 + 0.5 * m with hr2
  have hr : r1 < r2 := by rw [hr1, hr2]; linarith
  have hmax1 : max r1 0.3 < 1 := by
    rcases lt_or_le (max r1 0.3) 1 with h | h
    · exact h
    · exact absurd (min_eq_left h) h1
  have hmax2 : (0.3 : ℝ) < r2 := by
    rcases le_or_lt r2 0.3 with h | h
    · exact absurd (by rw [max_eq_right h, min_eq_right (by norm_num)]) h2
    · exact h
  rw [min_eq_right hmax1.le]
  calc max r1 0.3 < min 1 (max r1 0.3) + (min 1 (max r2 0.3) - min 1 (max r1 0.3)) := by
        rw [min_eq_right hmax1.le]
        have hm2 : max r2 0.3 = r2 := max_eq_left hmax2.le
        rcases le_or_lt 1 r2 with h | h
        · rw [hm2, min_eq_left h]; linarith
        · rw [hm2, min_eq_right h.le]
          rcases le_or_lt r1 0.3 with h' | h'
          · rw [max_eq_right h']; linarith
          · rw [max_eq_left h'.le]; linarith
    _ = min 1 (max r2 0.3) := by ring

/-- Witness for C8 at `d1 = 0.5`, `d2 = 0.9`, `m = 0.8`: phi rises from
`0.65` to `0.85`. -/
theorem C8_phi_strict_mono_witness :
    phi_combine 0.5 0.8 < phi_combine 0.9 0.8 := by
  refine C8_phi_strict_mono 0.5 0.9 0.8 (by norm_num) ?_ ?_
  · rw [phi_combine, clip, max_eq_left (by norm_num), min_eq_right (by norm_num)]
    norm_num
  · rw [phi_combine, clip, max_eq_left (by norm_num), min_eq_right (by norm_num)]
    norm_num

/-- The mean is invariant under permutation of the list. -/
lemma qmean_perm {l1 l2 : List ℚ} (h : l1.Perm l2) : qmean l1 = qmean l2 := by
  rw [qmean, qmean, h.sum_eq, h.length_eq]

/-- The population variance is invariant under permutation of the list. -/
lemma qvariance_perm {l1 l2 : List ℚ} (h : l1.Perm l2) : qvariance l1 = qvariance l2 := by
  rw [qvariance, qvariance, qmean_perm h,
    (h.map (fun x => (x - qmean l2) ^ 2)).sum_eq, h.length_eq]

/-- Directional agreement is invariant under permutation of the biases. -/
lemma directional_agreement_perm {l1 l2 : List ℚ} (h : l1.Perm l2) :
    directional_agreement l1 = directional_agreement l2 := by
  rw [directional_agreement, directional_agreement,
    (h.filter (fun b => decide (0 < b))).length_eq,
    (h.filter (fun b => decide (b < 0))).length_eq, h.length_eq]

/-- Magnitude consistency is invariant under permutation of the biases. -/
lemma magnitude_consistency_perm {l1 l2 : List ℚ} (h : l1.Perm l2) :
    magnitude_consistency l1 = magnitude_consistency l2 := by
  rw [magnitude_consistency, magnitude_consistency, qmean_perm h, npstd, npstd,
    qvariance_perm h]

/-- C10: the score is invariant under any permutation of the member
sequence: the whole `(BCI, phi, rho)` triple agrees on `members1` and any
reordering `members2`, for every observation and optional spread/error. -/
theorem C10_permutation_invariance (members1 members2 : List ℚ) (observation : ℚ)
    (spread error : Option ℚ) (h : members1.Perm members2) :
    calculate_bci members1 observation spread error =
      calculate_bci members2 observation spread error := by
  have hb : (members1.map (fun m => m - observation)).Perm
      (members2.map (fun m => m - observation)) := h.map _
  simp only [calculate_bci, calculate_bci_component_phi]
  rw [directional_agreement_perm hb, magnitude_consistency_perm hb, qmean_perm h,
    npstd, npstd, qvariance_perm h]

/-- Witness for C10: `[1, 2]` and `[2, 1]` score identically. -/
theorem C10_permutation_invariance_witness :
    calculate_bci [1, 2] 0 Option.none Option.none =
      calculate_bci [2, 1] 0 Option.none Option.none :=
  C10_permutation_invariance [1, 2] [2, 1] 0 Option.none Option.none (by decide)

/-! ### NaN-aware model of the scoring engine

With default settings numpy does not raise on an empty member array: an
empty-slice reduction and the scalar indeterminate form `0 / 0` produce NaN
with a `RuntimeWarning` (a warning, not an exception), comparisons against
NaN are false, and NaN propagates through arithmetic.  `FR` models an IEEE
double that is either a number or NaN (`Option.none`).  `fdiv` returns NaN
for the one division the code can actually reach with a zero denominator,
`0 / 0` on the empty array (every other division in the code is guarded by
a strictly positive denominator). -/

/-- A float value: a real number or NaN (`none`). -/
abbrev FR := Option ℝ

/-- NaN-propagating addition. -/
noncomputable def fadd : FR → FR → FR := Option.map₂ (· + ·)

/-- NaN-propagating subtraction. -/
noncomputable def fsub : FR → FR → FR := Option.map₂ (· - ·)

/-- NaN-propagating multiplication. -/
noncomputable def fmul : FR → FR → FR := Option.map₂ (· * ·)

/-- NaN-propagating division; a zero denominator yields NaN (the code only
ever reaches it as `0 / 0`). -/
noncomputable def fdiv : FR → FR → FR
  | some a, some b => if b = 0 then none else some (a / b)
  | _, _ => none

/-- NaN-propagating absolute value. -/
noncomputable def fabs : FR → FR := Option.map abs

/-- `np.sqrt`: NaN on NaN and on negative input. -/
noncomputable def fsqrt : FR → FR
  | some a => if a < 0 then none else some (Real.sqrt a)
  | none => none

/-- A comparison `c < x`: false when `x` is NaN, as IEEE comparisons are. -/
def fgt : FR → ℝ → Prop
  | some a, c => c < a
  | none, _ => False

/-- `np.clip` maps NaN to NaN. -/
noncomputable def fclip (x : FR) (lo hi : ℝ) : FR := x.map (fun v => clip v lo hi)

/-- Python `min(x, c)`: when `x` is NaN the comparison is false and `min`
returns its first argument, NaN. -/
noncomputable def fmin (x : FR) (c : ℝ) : FR := x.map (fun v => min v c)

/-- `np.mean`: sum over length; the empty array gives `0 / 0`, NaN. -/
noncomputable def fmean (l : List ℝ) : FR := fdiv (some l.sum) (some l.length)

/-- `np.std`: root of the mean squared deviation from the mean; NaN on the
empty array. -/
noncomputable def fstd (l : List ℝ) : FR :=
  match fmean l with
  | none => none
  | some mu => fsqrt (fmean (l.map (fun x => (x - mu) ^ 2)))

open Classical in
/-- Lines 16-55 of `03_calculate_bci.py` under numpy float semantics (NaN
instead of an exception on the empty array). -/
noncomputable def calculate_bci_component_phiF (members : List ℝ) (observation : ℝ) : FR :=
  let biases := members.map (fun m => m - observation)
  let n_pos := (biases.filter (fun b => decide (0 < b))).length
  let n_neg := (biases.filter (fun b => decide (b < 0))).length
  let da : FR := fdiv (some (max n_pos n_neg : ℕ)) (some biases.length)
  let bias_std := fstd biases
  let bias_mean := fabs (fmean biases)
  let mc : FR :=
    if fgt bias_mean 0.01 then fdiv (some 1) (fadd (some 1) (fdiv bias_std bias_mean))
    else some 0.8
  fclip (fadd (fmul (some 0.5) da) (fmul (some 0.5) mc)) 0.3 1

open Classical in
/-- Lines 57-82 of `03_calculate_bci.py` under numpy float semantics. -/
noncomputable def calculate_bci_component_rhoF (spread error : FR) : FR :=
  fclip (if fgt error 0.1 then fmin (fdiv spread error) 1 else some 1) 0.3 1

/-- Lines 84-122 of `03_calculate_bci.py` under numpy float semantics.  The
outer `Option` on `spread`/`error` is the Python `None` default (argument
not supplied), the inner `FR` the float value itself. -/
noncomputable def calculate_bciF (members : List ℝ) (observation : ℝ)
    (spread error : Option FR) : FR × FR × FR :=
  let phi := calculate_bci_component_phiF members observation
  let s : FR := spread.getD (fstd members)
  let e : FR := error.getD (fabs (fsub (fmean members) (some observation)))
  let rho := calculate_bci_component_rhoF s e
  (fsqrt (fmul phi rho), phi, rho)

/-- C3 counterexample: called on an empty member sequence (spread and error
not supplied), the scoring engine does not fail: it returns, and its rho
component is the ordinary number `1.0`.  numpy turns the empty-array
reductions and `0 / 0` into NaN with warnings, never an exception, so no
InvalidInput error is surfaced. -/
theorem C3_counterexample :
    (calculate_bciF [] 0 Option.none Option.none).2.2 = some 1 := by
  simp [calculate_bciF, calculate_bci_component_phiF, calculate_bci_component_rhoF,
    fmean, fdiv, fabs, fsub, fgt, fclip, Option.map₂]
  norm_num [clip]

/-- C3 (amended): on an empty member sequence the scoring engine raises
nothing and returns NaN for BCI and phi together with `rho = 1.0`: the mean
and std of the empty array are NaN, `0 / 0` in the directional agreement is
NaN, the NaN-valued comparisons select the fallback branches, and NaN
propagates into phi and BCI. -/
theorem C3_empty_members_nan :
    calculate_bciF [] 0 Option.none Option.none =
      (Option.none, Option.none, some 1) := by
  have hphi : calculate_bci_component_phiF [] 0 = Option.none := by
    simp [calculate_bci_component_phiF, fmean, fdiv, fabs, fadd, fmul, fgt, fclip,
      Option.map₂]
  have hrho : (calculate_bciF [] 0 Option.none Option.none).2.2 = some 1 := by
    simp [calculate_bciF, calculate_bci_component_phiF, calculate_bci_component_rhoF,
      fmean, fdiv, fabs, fsub, fgt, fclip, Option.map₂]
    norm_num [clip]
  have : calculate_bciF [] 0 Option.none Option.none =
      (fsqrt (fmul (calculate_bci_component_phiF [] 0)
        ((calculate_bciF [] 0 Option.none Option.none).2.2)),
       calculate_bci_component_phiF [] 0,
       (calculate_bciF [] 0 Option.none Option.none).2.2) := rfl
  rw [this, hphi, hrho]
  simp [fmul, fsqrt, Option.map₂]

/-! ### Record matching and filtering (`process_validation_data`,
lines 124-203 of `03_calculate_bci.py`) -/

/-- One row of the ensemble-members table (one row per member per instance). -/
structure EnsembleRow where
  storm : String
  valid_time : ℤ
  temperature : ℚ

/-- One row of the matched-forecasts table (one row per forecast instance). -/
structure MatchedRow where
  storm : String
  valid_time : ℤ
  obs_temperature : ℚ
  model_mean : ℚ
  model_std : ℚ
  mean_error : ℚ

/-- One row of the scored dataset. -/
structure ScoredRow where
  storm : String
  valid_time : ℤ
  obs_temperature : ℚ
  model_mean : ℚ
  model_std : ℚ
  mean_error : ℚ
  phi : ℝ
  rho : ℝ
  BCI : ℝ
  n_members : ℕ

/-- Lines 160-163 of `03_calculate_bci.py`: the member temperatures whose
row matches the `(storm, valid_time)` key exactly, in table order. -/
def members_for (ens : List EnsembleRow) (storm : String) (vt : ℤ) : List ℚ :=
  (ens.filter (fun e => e.storm == storm && e.valid_time == vt)).map (fun e => e.temperature)

/-- Lines 169-182 of `03_calculate_bci.py`: the `ScoredRow` a matched row
emits, carrying the matched fields, `(bci, phi, rho)` from `calculate_bci`
with the row's pre-aggregated spread and error, and the member count. -/
noncomputable def score_row (r : MatchedRow) (members : List ℚ) : ScoredRow :=
  let t := calculate_bci members r.obs_temperature (some r.model_std) (some r.mean_error)
  { storm := r.storm, valid_time := r.valid_time, obs_temperature := r.obs_temperature,
    model_mean := r.model_mean, model_std := r.model_std, mean_error := r.mean_error,
    phi := t.2.1, rho := t.2.2, BCI := t.1, n_members := members.length }

/-- Lines 152-182 of `03_calculate_bci.py`: iterate over the matched rows in
order, skip a row silently when its key matches fewer than 4 ensemble
members, otherwise score it and append. -/
noncomputable def process_validation_data (matched : List MatchedRow)
    (ens : List EnsembleRow) : List ScoredRow :=
  match matched with
  | [] => []
  | r :: rs =>
    let members := members_for ens r.storm r.valid_time
    if members.length < 4 then process_validation_data rs ens
    else score_row r members :: process_validation_data rs ens

/-- The loop is a `filterMap` over the matched rows. -/
lemma process_validation_data_eq_filterMap (matched : List MatchedRow)
    (ens : List EnsembleRow) :
    process_validation_data matched ens =
      matched.filterMap (fun r =>
        let members := members_for ens r.storm r.valid_time
        if members.length < 4 then none else some (score_row r members)) := by
  induction matched with
  | nil => rfl
  | cons r rs ih =>
    by_cases h : (members_for ens r.storm r.valid_time).length < 4
    · rw [process_validation_data, if_pos h, ih, List.filterMap_cons]
      simp only [if_pos h]
    · rw [process_validation_data, if_neg h, ih, List.filterMap_cons]
      simp only [if_neg h]

/-- C4: the scored dataset is exactly the matched rows whose exact
`(storm, valid_time)` key matches at least 4 ensemble member values, scored
in input order (a `filterMap`); rows with fewer members are skipped without
any error; the output keys form a sublist of the input keys (order
preserved); and the output never has more entries than the input. -/
theorem C4_matching_filtering (matched : List MatchedRow) (ens : List EnsembleRow) :
    process_validation_data matched ens =
      matched.filterMap (fun r =>
        let members := members_for ens r.storm r.valid_time
        if members.length < 4 then none else some (score_row r members)) ∧
    List.Sublist
      ((process_validation_data matched ens).map (fun s => (s.storm, s.valid_time)))
      (matched.map (fun r => (r.storm, r.valid_time))) ∧
    (process_validation_data matched ens).length ≤ matched.length := by
  refine ⟨process_validation_data_eq_filterMap matched ens, ?_, ?_⟩
  · induction matched with
    | nil => simp [process_validation_data]
    | cons r rs ih =>
      by_cases h : (members_for ens r.storm r.valid_time).length < 4
      · rw [process_validation_data, if_pos h]
        exact ih.cons _
      · rw [process_validation_data, if_neg h]
        exact ih.cons₂ _
  · induction matched with
    | nil => simp [process_validation_data]
    | cons r rs ih =>
      by_cases h : (members_for ens r.storm r.valid_time).length < 4
      · rw [process_validation_data, if_pos h]
        exact ih.trans (Nat.le_succ _)
      · rw [process_validation_data, if_neg h]
        simpa using ih

/-! ### Validation engine statistics (`04_validation.py`, lines 17-27)

`partial_correlation` residualizes `x` and `y` against `control` with a
degree-1 `np.polyfit` (ordinary least squares, whose unique solution for a
non-constant control is the classic slope/intercept below) and correlates
the residuals with `scipy.stats.pearsonr`.  `pearsonr` raises for sequences
shorter than 2 and returns NaN (with a `ConstantInputWarning`) when either
input is constant; both outcomes are modelled as `Option.none`. -/

/-- Mean of a finite real sequence. -/
noncomputable def smean {n : ℕ} (x : Fin n → ℝ) : ℝ := (∑ i, x i) / n

/-- Sum of products of deviations from the means (the unnormalised
covariance; `scov x x` is the unnormalised variance). -/
noncomputable def scov {n : ℕ} (x y : Fin n → ℝ) : ℝ :=
  ∑ i, (x i - smean x) * (y i - smean y)

/-- Slope of `np.polyfit(control, x, 1)`: the least-squares line. -/
noncomputable def fit_slope {n : ℕ} (control x : Fin n → ℝ) : ℝ :=
  scov control x / scov control control

/-- Intercept of `np.polyfit(control, x, 1)`. -/
noncomputable def fit_intercept {n : ℕ} (control x : Fin n → ℝ) : ℝ :=
  smean x - fit_slope control x * smean control

/-- Line 22/23 of `04_validation.py`:
`x - np.polyval(np.polyfit(control, x, 1), control)`. -/
noncomputable def residualize {n : ℕ} (control x : Fin n → ℝ) : Fin n → ℝ :=
  fun i => x i - (fit_slope control x * control i + fit_intercept control x)

/-- A constant sequence (scipy's `(x == x[0]).all()` check). -/
def IsConstSeq {n : ℕ} (x : Fin n → ℝ) : Prop := ∀ i j, x i = x j

open Classical in
/-- `scipy.stats.pearsonr`, coefficient only: undefined (`none`) for length
below 2 (scipy raises) or a constant input (scipy warns and returns NaN);
otherwise `r = Σ xm·ym / √(Σ xm² · Σ ym²)` with `xm`, `ym` the mean-centred
sequences. -/
noncomputable def pearson_r {n : ℕ} (x y : Fin n → ℝ) : Option ℝ :=
  if n < 2 then none
  else if IsConstSeq x ∨ IsConstSeq y then none
  else some (scov x y / Real.sqrt (scov x x * scov y y))

/-- Lines 17-27 of `04_validation.py`: Pearson correlation of the two
residual sequences. -/
noncomputable def partial_correlation {n : ℕ} (x y control : Fin n → ℝ) : Option ℝ :=
  pearson_r (residualize control x) (residualize control y)

/-- A nonzero unnormalised variance forces a nonempty index type. -/
lemma ncast_ne_zero_of_scov {n : ℕ} {c : Fin n → ℝ} (h : scov c c ≠ 0) : (n : ℝ) ≠ 0 := by
  intro hn
  apply h
  have : n = 0 := by exact_mod_cast hn
  subst this
  simp [scov]

/-- Adding `a * control + b` shifts the mean by `a * mean control + b`. -/
lemma smean_shift {n : ℕ} (c x : Fin n → ℝ) (a b : ℝ) (hn : (n : ℝ) ≠ 0) :
    smean (fun i => x i + a * c i + b) = smean x + a * smean c + b := by
  have hsum : (∑ i, (x i + a * c i + b)) = (∑ i, x i) + a * (∑ i, c i) + n * b := by
    rw [Finset.sum_add_distrib, Finset.sum_add_distrib, ← Finset.mul_sum]
    simp [Finset.sum_const, Finset.card_univ, mul_comm]
  rw [smean, hsum, smean, smean]
  field_simp
  ring

/-- Adding `a * control + b` to `x` shifts its covariance with the control
by `a` times the control's variance. -/
lemma scov_shift {n : ℕ} (c x : Fin n → ℝ) (a b : ℝ) (hn : (n : ℝ) ≠ 0) :
    scov c (fun i => x i + a * c i + b) = scov c x + a * scov c c := by
  rw [scov, scov, scov]
  rw [Finset.mul_sum, ← Finset.sum_add_distrib]
  refine Finset.sum_congr rfl fun i _ => ?_
  rw [smean_shift c x a b hn]
  ring

/-- Residualizing against a non-constant control absorbs any added linear
function of the control. -/
lemma residualize_shift {n : ℕ} (c x : Fin n → ℝ) (a b : ℝ)
    (h : scov c c ≠ 0) :
    residualize c (fun i => x i + a * c i + b) = residualize c x := by
  have hn := ncast_ne_zero_of_scov h
  have hs : fit_slope c (fun i => x i + a * c i + b) = fit_slope c x + a := by
    rw [fit_slope, fit_slope, scov_shift c x a b hn, add_div, mul_div_assoc,
      div_self h, mul_one]
  funext i
  rw [residualize, residualize, fit_intercept, fit_intercept, hs,
    smean_shift c x a b hn]
  ring

/-- C5: for every `x`, `y` and non-constant `control` (nonzero variance, so
the degree-1 fit is defined) and all scalars `a`, `b`, the coefficient of
`partial_correlation` is unchanged by adding `a * control + b` to `x`, and
symmetrically to `y`. -/
theorem C5_partial_correlation_invariant {n : ℕ} (x y control : Fin n → ℝ) (a b : ℝ)
    (h : scov control control ≠ 0) :
    partial_correlation (fun i => x i + a * control i + b) y control =
        partial_correlation x y control ∧
      partial_correlation x (fun i => y i + a * control i + b) control =
        partial_correlation x y control := by
  constructor
  · rw [partial_correlation, partial_correlation, residualize_shift control x a b h]
  · rw [partial_correlation, partial_correlation, residualize_shift control y a b h]

/-- Witness for C5 with `control = (0, 1)`, `x = y = (0, 0)`, `a = 1`,
`b = 0`. -/
theorem C5_partial_correlation_invariant_witness :
    scov (fun i : Fin 2 => (i : ℝ)) (fun i : Fin 2 => (i : ℝ)) ≠ 0 ∧
      partial_correlation (fun i : Fin 2 => (0 : ℝ) + 1 * (i : ℝ) + 0)
          (fun _ : Fin 2 => (0 : ℝ)) (fun i : Fin 2 => (i : ℝ)) =
        partial_correlation (fun _ : Fin 2 => (0 : ℝ)) (fun _ : Fin 2 => (0 : ℝ))
          (fun i : Fin 2 => (i : ℝ)) := by
  have h : scov (fun i : Fin 2 => (i : ℝ)) (fun i : Fin 2 => (i : ℝ)) ≠ 0 := by
    rw [scov, smean, Fin.sum_univ_two, Fin.sum_univ_two]
    norm_num
  exact ⟨h, (C5_partial_correlation_invariant (fun _ => 0) (fun _ => 0)
    (fun i => (i : ℝ)) 1 0 h).1⟩

/-- Residualizing any sequence against itself yields the zero sequence:
with nonzero variance the fit has slope 1 and intercept 0; with zero
variance the sequence is constant, the junk slope is 0 and the intercept is
the mean. -/
lemma residualize_self {n : ℕ} (x : Fin n → ℝ) : residualize x x = fun _ => 0 := by
  funext i
  by_cases hv : scov x x = 0
  · have hx : x i - smean x = 0 := by
      have h0 := (Finset.sum_eq_zero_iff_of_nonneg
        (fun j _ => mul_self_nonneg (x j - smean x))).mp hv i (Finset.mem_univ i)
      exact mul_self_eq_zero.mp h0
    rw [residualize, fit_slope, fit_intercept, fit_slope, hv, div_zero]
    simpa using hx
  · rw [residualize, fit_slope, fit_intercept, fit_slope, div_self hv]
    ring

/-- C9 (amended): correlating a signal with itself while controlling for
itself never yields a numeric coefficient: the residuals are identically
zero, a constant input, for which `pearsonr` is undefined (scipy returns
NaN; for lengths below 2 it raises), modelled as `none`. -/
theorem C9_partial_self_undefined {n : ℕ} (x : Fin n → ℝ) :
    partial_correlation x x x = Option.none := by
  rcases Nat.lt_or_ge n 2 with h | h
  · rw [partial_correlation, pearson_r, if_pos h]
  · rw [partial_correlation, residualize_self, pearson_r, if_neg (by omega)]
    have hconst : IsConstSeq (fun _ : Fin n => (0 : ℝ)) ∨
        IsConstSeq (fun _ : Fin n => (0 : ℝ)) := Or.inl fun i j => rfl
    rw [if_pos hconst]

/-- C9 counterexample: at `x = control = (0, 1)` the residuals vanish, the
Pearson correlation of the zero residuals is undefined (NaN), and so the
coefficient is not 0. -/
theorem C9_counterexample :
    partial_correlation (fun i : Fin 2 => (i : ℝ)) (fun i : Fin 2 => (i : ℝ))
      (fun i : Fin 2 => (i : ℝ)) ≠ some 0 := by
  have hres : residualize (fun i : Fin 2 => (i : ℝ)) (fun i : Fin 2 => (i : ℝ))
      = fun _ => 0 := by
    have hv : scov (fun i : Fin 2 => (i : ℝ)) (fun i : Fin 2 => (i : ℝ)) ≠ 0 := by
      rw [scov, smean, Fin.sum_univ_two, Fin.sum_univ_two]
      norm_num
    funext i
    rw [residualize, fit_slope, fit_intercept, fit_slope, div_self hv]
    ring
  rw [partial_correlation, hres, pearson_r, if_neg (by omega)]
  have hconst : IsConstSeq (fun _ : Fin 2 => (0 : ℝ)) ∨
      IsConstSeq (fun _ : Fin 2 => (0 : ℝ)) := Or.inl fun i j => rfl
  rw [if_pos hconst]
  simp

/-! ### Validation and baseline engines over the scored table

`validate_bci` and `baseline_comparison` both read the scored CSV; one row
of it is a `VRow`.  Only the columns they use are modelled. -/

/-- One row of the scored table as read back by `04_validation.py`. -/
structure VRow where
  storm : String
  valid_time : ℤ
  BCI : ℚ
  model_std : ℚ
  mean_error : ℚ

/-- `Series.quantile(0.75)` (pandas default linear interpolation): with the
values sorted ascending and `h = 0.75 * (n - 1)`, interpolate between the
entries at `⌊h⌋` and `⌈h⌉`.  The empty series (pandas NaN) is given the junk
value 0; the claims never touch it. -/
def quantile75 (l : List ℚ) : ℚ :=
  let s := List.insertionSort (fun a b => a ≤ b) l
  let n := l.length
  if n = 0 then 0
  else
    let h : ℚ := 3 * ((n : ℚ) - 1) / 4
    let i : ℕ := ⌊h⌋.toNat
    let j : ℕ := ⌈h⌉.toNat
    s.getD i 0 + (h - (i : ℚ)) * (s.getD j 0 - s.getD i 0)

/-- Line 111 of `04_validation.py`:
`error_threshold = df['mean_error'].quantile(0.75)`. -/
def error_threshold (df : List VRow) : ℚ := quantile75 (df.map (fun r => r.mean_error))

/-- Line 112 of `04_validation.py`:
`df['high_error'] = (df['mean_error'] > error_threshold).astype(int)`. -/
def high_error (df : List VRow) : List ℕ :=
  df.map (fun r => if error_threshold df < r.mean_error then 1 else 0)

/-- Summing a 0/1 indicator over a list counts the rows satisfying the
predicate. -/
lemma sum_map_ite {α : Type} (p : α → Prop) [DecidablePred p] (l : List α) :
    (l.map (fun a => if p a then (1 : ℕ) else 0)).sum =
      (l.filter (fun a => decide (p a))).length := by
  induction l with
  | nil => rfl
  | cons a l ih =>
    by_cases h : p a <;> simp [h, ih, List.filter_cons, Nat.add_comm]

/-- C6: the high-error threshold is the 75th percentile of the
`mean_error` field, the binary label is 1 exactly on strict exceedance, and
the labelled count (the sum of the 0/1 labels) equals the number of rows
strictly exceeding the threshold. -/
theorem C6_baseline_threshold (df : List VRow) :
    error_threshold df = quantile75 (df.map (fun r => r.mean_error)) ∧
      (∀ r : VRow,
        (if error_threshold df < r.mean_error then (1 : ℕ) else 0) = 1 ↔
          error_threshold df < r.mean_error) ∧
      (high_error df).sum =
        (df.filter (fun r => decide (error_threshold df < r.mean_error))).length := by
  refine ⟨rfl, fun r => ?_, ?_⟩
  · by_cases h : error_threshold df < r.mean_error <;> simp [h]
  · exact sum_map_ite (fun r => error_threshold df < r.mean_error) df

/-! ### Per-storm summaries (`validate_bci`, lines 84-91 of
`04_validation.py`)

`df.groupby('storm')` (pandas default `sort=True`) lists the groups by
ascending storm name; `.agg` computes mean/std of BCI, mean spread, mean
error and the instance count; `.round(3)` rounds every aggregate to three
decimals (half to even, as numpy does); `sort_values('N', ascending=False)`
orders the summaries by descending count.  That sort is modelled as a
stable insertion sort; numpy's default sort likewise runs a stable
insertion sort on the small tied runs the counterexample below exercises. -/

/-- Round half-to-even to an integer (numpy rounding). -/
def roundHE {α : Type} [LinearOrderedField α] [FloorRing α] (y : α) : ℤ :=
  if y - ⌊y⌋ < 1 / 2 then ⌊y⌋
  else if (1 : α) / 2 < y - ⌊y⌋ then ⌊y⌋ + 1
  else if ⌊y⌋ % 2 = 0 then ⌊y⌋ else ⌊y⌋ + 1

/-- `round(x, 3)`: three decimals, half to even. -/
def round3 {α : Type} [LinearOrderedField α] [FloorRing α] (x : α) : α :=
  ((roundHE (x * 1000) : ℤ) : α) / 1000

/-- pandas sample variance (`ddof = 1`).  A single-row group divides by
zero, giving Lean's junk 0 (pandas: NaN); no claim touches that value. -/
def qsvar (l : List ℚ) : ℚ :=
  ((l.map (fun x => (x - qmean l) ^ 2)).sum) / ((l.length : ℚ) - 1)

/-- One row of `storm_stats`, columns as renamed on line 90:
`['BCI_mean', 'BCI_std', 'Spread', 'Error', 'N']`. -/
structure StormSummary where
  storm : String
  BCI_mean : ℚ
  BCI_std : ℝ
  Spread : ℚ
  Error : ℚ
  N : ℕ

/-- The aggregate row of one storm's group of scored records. -/
noncomputable def mkStormSummary (s : String) (g : List VRow) : StormSummary :=
  { storm := s
    BCI_mean := round3 (qmean (g.map (fun r => r.BCI)))
    BCI_std := round3 (Real.sqrt ((qsvar (g.map (fun r => r.BCI)) : ℚ) : ℝ))
    Spread := round3 (qmean (g.map (fun r => r.model_std)))
    Error := round3 (qmean (g.map (fun r => r.mean_error)))
    N := g.length }

/-- The group keys: the distinct storm names, listed ascending
(`groupby`'s default `sort=True`). -/
def storm_keys (df : List VRow) : List String :=
  List.insertionSort (fun a b => a ≤ b) ((df.map (fun r => r.storm)).dedup)

/-- The descending-instance-count order used by
`sort_values('N', ascending=False)`. -/
def byCountDesc (a b : StormSummary) : Prop := b.N ≤ a.N

instance : DecidableRel byCountDesc := fun a b => inferInstanceAs (Decidable (b.N ≤ a.N))

instance : IsTotal StormSummary byCountDesc := ⟨fun a b => Nat.le_total b.N a.N⟩

instance : IsTrans StormSummary byCountDesc :=
  ⟨fun _ _ _ hab hbc => le_trans hbc hab⟩

/-- Lines 84-91 of `04_validation.py`: group the scored records by storm,
aggregate each group, and order the summaries by descending instance
count. -/
noncomputable def summarize_by_storm (df : List VRow) : List StormSummary :=
  List.insertionSort byCountDesc
    ((storm_keys df).map (fun s => mkStormSummary s (df.filter (fun r => r.storm == s))))

/-- Inserting into a descending-count list sorted with name tie-break keeps
that shape, provided the inserted element precedes all its count-ties by
name. -/
lemma pairwise_orderedInsert_tie (x : StormSummary) (l : List StormSummary)
    (hl : List.Pairwise (fun a b => b.N ≤ a.N ∧ (a.N = b.N → a.storm ≤ b.storm)) l)
    (hx : ∀ y ∈ l, x.N = y.N → x.storm ≤ y.storm) :
    List.Pairwise (fun a b => b.N ≤ a.N ∧ (a.N = b.N → a.storm ≤ b.storm))
      (List.orderedInsert byCountDesc x l) := by
  induction l with
  | nil => simp
  | cons y ys ih =>
    rw [List.orderedInsert]
    by_cases h : byCountDesc x y
    · rw [if_pos h]
      refine List.Pairwise.cons ?_ hl
      intro z hz
      rcases List.mem_cons.mp hz with rfl | hz'
      · exact ⟨h, hx z (List.mem_cons_self _ _)⟩
      · have hyz := (List.pairwise_cons.mp hl).1 z hz'
        exact ⟨le_trans hyz.1 h, hx z (List.mem_cons_of_mem _ hz')⟩
    · rw [if_neg h]
      have hxy : x.N < y.N := lt_of_not_le h
      refine List.Pairwise.cons ?_
        (ih (List.pairwise_cons.mp hl).2 (fun z hz => hx z (List.mem_cons_of_mem _ hz)))
      intro z hz
      rcases (List.mem_orderedInsert _).mp hz with rfl | hz'
      · exact ⟨hxy.le, fun he => absurd he (by omega)⟩
      · exact (List.pairwise_cons.mp hl).1 z hz'

/-- The stable insertion sort by descending count breaks count ties by the
input order; on an input ordered by ascending storm name on ties, the
output is therefore tie-broken by ascending storm name. -/
lemma pairwise_insertionSort_tie (l : List StormSummary)
    (h : List.Pairwise (fun a b => a.N = b.N → a.storm ≤ b.storm) l) :
    List.Pairwise (fun a b => b.N ≤ a.N ∧ (a.N = b.N → a.storm ≤ b.storm))
      (List.insertionSort byCountDesc l) := by
  induction l with
  | nil => simp
  | cons x xs ih =>
    rw [List.insertionSort]
    refine pairwise_orderedInsert_tie x _ (ih (List.pairwise_cons.mp h).2) ?_
    intro y hy
    exact (List.pairwise_cons.mp h).1 y ((List.mem_insertionSort _).mp hy)

/-- C7 (amended): the summaries are grouped by storm (one summary per
distinct storm name, each equal to the aggregate of exactly its storm's
records) and ordered by descending instance count, with count ties broken
by ascending storm name (pandas sorts the group keys alphabetically and the
count sort leaves tied groups in that order). -/
theorem C7_summarize_by_storm (df : List VRow) :
    List.Pairwise (fun a b => b.N ≤ a.N ∧ (a.N = b.N → a.storm ≤ b.storm))
      (summarize_by_storm df) ∧
      (∀ g ∈ summarize_by_storm df,
        g = mkStormSummary g.storm (df.filter (fun r => r.storm == g.storm))) ∧
      ((summarize_by_storm df).map (fun g => g.storm)).Perm
        ((df.map (fun r => r.storm)).dedup) := by
  refine ⟨?_, ?_, ?_⟩
  · apply pairwise_insertionSort_tie
    have hkeys : List.Pairwise (fun a b : String => a ≤ b) (storm_keys df) := by
      rw [storm_keys]
      exact List.sorted_insertionSort _ _
    rw [List.pairwise_map]
    exact hkeys.imp (fun hab => fun _ => hab)
  · intro g hg
    have hg' : g ∈ (storm_keys df).map
        (fun s => mkStormSummary s (df.filter (fun r => r.storm == s))) :=
      (List.mem_insertionSort _).mp hg
    rcases List.mem_map.mp hg' with ⟨s, _, rfl⟩
    rfl
  · have h1 : ((summarize_by_storm df).map (fun g => g.storm)).Perm
        (((storm_keys df).map
          (fun s => mkStormSummary s (df.filter (fun r => r.storm == s)))).map
            (fun g => g.storm)) :=
      (List.perm_insertionSort byCountDesc _).map _
    have h2 : (((storm_keys df).map
        (fun s => mkStormSummary s (df.filter (fun r => r.storm == s)))).map
          (fun g => g.storm)) = storm_keys df := by
      rw [List.map_map]
      exact List.map_id _
    rw [h2] at h1
    exact h1.trans (List.perm_insertionSort _ _)

/-- The storm names in order of first appearance (the claimed tie-break). -/
def encounter_order (l : List String) : List String :=
  l.foldl (fun acc s => if s ∈ acc then acc else acc ++ [s]) []

/-- C7 counterexample: two storms "B" then "A" with one record each (a
count tie).  `groupby` lists the keys alphabetically, so the summaries come
out `["A", "B"]`, not the first-encounter order `["B", "A"]` the claim
asserts. -/
theorem C7_counterexample :
    (summarize_by_storm [⟨"B", 0, 1, 1, 1⟩, ⟨"A", 0, 1, 1, 1⟩]).map (fun g => g.storm)
        = ["A", "B"] ∧
      encounter_order (([⟨"B", 0, 1, 1, 1⟩, ⟨"A", 0, 1, 1, 1⟩] : List VRow).map
        (fun r => r.storm)) = ["B", "A"] ∧
      (summarize_by_storm [⟨"B", 0, 1, 1, 1⟩, ⟨"A", 0, 1, 1, 1⟩]).map (fun g => g.storm)
        ≠ encounter_order (([⟨"B", 0, 1, 1, 1⟩, ⟨"A", 0, 1, 1, 1⟩] : List VRow).map
          (fun r => r.storm)) := by
  have hBA : ¬ ("B" : String) ≤ "A" := by
    simp only [String.le_iff_toList_le]
    decide
  have hmap : (summarize_by_storm [⟨"B", 0, 1, 1, 1⟩, ⟨"A", 0, 1, 1, 1⟩]).map
      (fun g => g.storm) = ["A", "B"] := by
    rw [summarize_by_storm, storm_keys]
    simp only [List.map_cons, List.map_nil]
    rw [List.dedup_cons_of_not_mem (by simp), List.dedup_cons_of_not_mem (by simp),
      List.dedup_nil]
    simp [List.insertionSort, List.orderedInsert, hBA, mkStormSummary, byCountDesc,
      List.filter]
  have henc : encounter_order (([⟨"B", 0, 1, 1, 1⟩, ⟨"A", 0, 1, 1, 1⟩] : List VRow).map
      (fun r => r.storm)) = ["B", "A"] := by
    simp [encounter_order]
  refine ⟨hmap, henc, ?_⟩
  rw [hmap, henc]
  simp

/-! ### Agreement of the two scoring models

On a non-empty member list no NaN ever arises, and the NaN-aware model
`calculate_bciF` computes exactly the real-valued `calculate_bci` (member
values cast from the rational table entries).  This ties the model used for
the empty-input claim to the one used everywhere else. -/

lemma fadd_some (a b : ℝ) : fadd (some a) (some b) = some (a + b) := rfl

lemma fsub_some (a b : ℝ) : fsub (some a) (some b) = some (a - b) := rfl

lemma fmul_some (a b : ℝ) : fmul (some a) (some b) = some (a * b) := rfl

lemma fdiv_some (a b : ℝ) : fdiv (some a) (some b) = if b = 0 then none else some (a / b) := rfl

lemma fabs_some (a : ℝ) : fabs (some a) = some |a| := rfl

lemma fsqrt_some (a : ℝ) : fsqrt (some a) = if a < 0 then none else some (Real.sqrt a) := rfl

lemma fgt_some (a c : ℝ) : fgt (some a) c ↔ c < a := Iff.rfl

lemma fclip_some (a lo hi : ℝ) : fclip (some a) lo hi = some (clip a lo hi) := rfl

lemma fmin_some (a c : ℝ) : fmin (some a) c = some (min a c) := rfl

/-- On a non-empty list, the float mean is the rational mean. -/
lemma fmean_cast (l : List ℚ) (h : l ≠ []) :
    fmean (l.map (Rat.cast : ℚ → ℝ)) = some ((qmean l : ℚ) : ℝ) := by
  have hlen : ((l.map (Rat.cast : ℚ → ℝ)).length : ℝ) ≠ 0 := by
    rw [List.length_map]
    exact_mod_cast (List.length_pos.mpr h).ne'
  rw [fmean, fdiv_some, if_neg hlen, List.length_map, qmean]
  rw [← Rat.cast_list_sum]
  push_cast
  rfl

/-- The population variance is a mean of squares, hence nonnegative. -/
lemma qvariance_nonneg (l : List ℚ) : 0 ≤ qvariance l := by
  rw [qvariance]
  refine div_nonneg (List.sum_nonneg fun x hx => ?_) (Nat.cast_nonneg _)
  rcases List.mem_map.mp hx with ⟨q, _, rfl⟩
  positivity

/-- On a non-empty list, the float std is the real `npstd`. -/
lemma fstd_cast (l : List ℚ) (h : l ≠ []) :
    fstd (l.map (Rat.cast : ℚ → ℝ)) = some (npstd l) := by
  rw [fstd, fmean_cast l h]
  have hmaps : (l.map (Rat.cast : ℚ → ℝ)).map (fun x => (x - ((qmean l : ℚ) : ℝ)) ^ 2) =
      (l.map (fun q => (q - qmean l) ^ 2)).map (Rat.cast : ℚ → ℝ) := by
    rw [List.map_map, List.map_map]
    refine List.map_congr_left fun q _ => ?_
    simp only [Function.comp_apply]
    push_cast
    ring
  have hne : l.map (fun q => (q - qmean l) ^ 2) ≠ [] := by
    simpa using h
  dsimp only
  rw [hmaps, fmean_cast _ hne]
  have hq : qmean (l.map (fun q => (q - qmean l) ^ 2)) = qvariance l := by
    rw [qmean, qvariance, List.length_map]
  rw [hq, fsqrt_some, if_neg (by exact_mod_cast not_lt.mpr (qvariance_nonneg l)), npstd]

/-- On a non-empty member list the NaN-aware phi agrees with the
real-valued phi. -/
lemma phiF_cast (members : List ℚ) (obs : ℚ) (h : members ≠ []) :
    calculate_bci_component_phiF (members.map (Rat.cast : ℚ → ℝ)) ((obs : ℝ)) =
      some (calculate_bci_component_phi members obs) := by
  have hbias : (members.map (Rat.cast : ℚ → ℝ)).map (fun m => m - ((obs : ℚ) : ℝ)) =
      (members.map (fun m => m - obs)).map (Rat.cast : ℚ → ℝ) := by
    rw [List.map_map, List.map_map]
    refine List.map_congr_left fun q _ => ?_
    simp only [Function.comp_apply]
    push_cast
    ring
  set biasesQ := members.map (fun m => m - obs) with hQ
  have hQne : biasesQ ≠ [] := by simpa [hQ] using h
  have hlen : ((biasesQ.map (Rat.cast : ℚ → ℝ)).length : ℝ) ≠ 0 := by
    rw [List.length_map]
    exact_mod_cast (List.length_pos.mpr hQne).ne'
  have hpos : ((biasesQ.map (Rat.cast : ℚ → ℝ)).filter
        (fun b => decide ((0 : ℝ) < b))).length =
      (biasesQ.filter (fun b => decide ((0 : ℚ) < b))).length := by
    rw [List.filter_map, List.length_map]
    congr 1
    refine List.filter_congr fun q _ => ?_
    simp only [Function.comp_apply]
    exact decide_eq_decide.mpr (by exact_mod_cast Iff.rfl)
  have hneg : ((biasesQ.map (Rat.cast : ℚ → ℝ)).filter
        (fun b => decide (b < (0 : ℝ)))).length =
      (biasesQ.filter (fun b => decide (b < (0 : ℚ)))).length := by
    rw [List.filter_map, List.length_map]
    congr 1
    refine List.filter_congr fun q _ => ?_
    simp only [Function.comp_apply]
    exact decide_eq_decide.mpr (by exact_mod_cast Iff.rfl)
  have h001 : ((0.01 : ℚ) : ℝ) = (0.01 : ℝ) := by norm_num
  have habs : fabs (fmean ((members.map (Rat.cast : ℚ → ℝ)).map
      (fun m => m - ((obs : ℚ) : ℝ)))) = some ((|qmean biasesQ| : ℚ) : ℝ) := by
    rw [hbias, fmean_cast _ hQne, fabs_some, ← Rat.cast_abs]
  have hcond : fgt (fabs (fmean ((members.map (Rat.cast : ℚ → ℝ)).map
      (fun m => m - ((obs : ℚ) : ℝ))))) 0.01 ↔ (0.01 : ℚ) < |qmean biasesQ| := by
    rw [habs, fgt_some, ← h001, Rat.cast_lt]
  have hdiv : fdiv (some ((max (biasesQ.filter (fun b => decide ((0 : ℚ) < b))).length
        (biasesQ.filter (fun b => decide (b < (0 : ℚ)))).length : ℕ) : ℝ))
      (some ((biasesQ.map (Rat.cast : ℚ → ℝ)).length : ℝ)) =
      some (((directional_agreement biasesQ : ℚ) : ℝ)) := by
    rw [fdiv_some, if_neg hlen, List.length_map, directional_agreement]
    push_cast
    rfl
  simp only [calculate_bci_component_phiF]
  by_cases hq : (0.01 : ℚ) < |qmean biasesQ|
  · rw [if_pos (hcond.mpr hq)]
    rw [hbias, fmean_cast _ hQne, fstd_cast _ hQne, hpos, hneg, hdiv, fabs_some,
      ← Rat.cast_abs]
    have habs_pos : (0 : ℝ) < ((|qmean biasesQ| : ℚ) : ℝ) := by
      exact_mod_cast lt_trans (by norm_num) hq
    have hstd : (0 : ℝ) ≤ npstd biasesQ := Real.sqrt_nonneg _
    have hden : (1 : ℝ) + npstd biasesQ / ((|qmean biasesQ| : ℚ) : ℝ) ≠ 0 :=
      (lt_of_lt_of_le one_pos (le_add_of_nonneg_right
        (div_nonneg hstd habs_pos.le))).ne'
    rw [fdiv_some, if_neg habs_pos.ne', fadd_some, fdiv_some, if_neg hden]
    rw [fmul_some, fmul_some, fadd_some, fclip_some]
    simp only [calculate_bci_component_phi, phi_combine, magnitude_consistency,
      if_pos hq]
  · rw [if_neg (fun hc => hq (hcond.mp hc))]
    rw [hbias, hpos, hneg, hdiv]
    rw [fmul_some, fmul_some, fadd_some, fclip_some]
    simp only [calculate_bci_component_phi, phi_combine, magnitude_consistency,
      if_neg hq]

/-- On numeric (non-NaN) inputs the NaN-aware rho agrees with the
real-valued rho. -/
lemma rhoF_cast (spread error : ℝ) :
    calculate_bci_component_rhoF (some spread) (some error) =
      some (calculate_bci_component_rho spread error) := by
  rw [calculate_bci_component_rhoF, calculate_bci_component_rho]
  by_cases he : (0.1 : ℝ) < error
  · rw [if_pos ((fgt_some error 0.1).mpr he), if_pos he, fdiv_some,
      if_neg (lt_trans (by norm_num) he).ne', fmin_some, fclip_some]
  · rw [if_neg (fun hc => he ((fgt_some error 0.1).mp hc)), if_neg he, fclip_some]

/-- Phi is at least the lower clip, in particular nonnegative. -/
lemma phi_nonneg (members : List ℚ) (obs : ℚ) :
    (0 : ℝ) ≤ calculate_bci_component_phi members obs :=
  le_trans (by norm_num) (clip_mem (0.5 * ((directional_agreement
    (members.map (fun m => m - obs)) : ℚ) : ℝ) +
    0.5 * magnitude_consistency (members.map (fun m => m - obs)))).1

/-- Rho is at least the lower clip, in particular nonnegative. -/
lemma rho_nonneg (s e : ℝ) : (0 : ℝ) ≤ calculate_bci_component_rho s e :=
  le_trans (by norm_num)
    (clip_mem (if (0.1 : ℝ) < e then min (s / e) 1 else 1)).1

/-- On a non-empty member list (values cast from the rational table) the
NaN-aware model returns exactly the real-valued score, componentwise: no
NaN arises, for supplied or derived spread and error alike. -/
theorem calculate_bciF_agrees (members : List ℚ) (obs : ℚ) (spread error : Option ℚ)
    (h : members ≠ []) :
    calculate_bciF (members.map (Rat.cast : ℚ → ℝ)) ((obs : ℝ))
        (spread.map (fun q => (some ((Rat.cast : ℚ → ℝ) q) : FR)))
        (error.map (fun q => (some ((Rat.cast : ℚ → ℝ) q) : FR))) =
      (some (calculate_bci members obs spread error).1,
       some (calculate_bci members obs spread error).2.1,
       some (calculate_bci members obs spread error).2.2) := by
  have hsqrt : ∀ s e : ℝ,
      fsqrt (fmul (some (calculate_bci_component_phi members obs))
        (some (calculate_bci_component_rho s e))) =
      some (Real.sqrt (calculate_bci_component_phi members obs *
        calculate_bci_component_rho s e)) := by
    intro s e
    rw [fmul_some, fsqrt_some,
      if_neg (not_lt.mpr (mul_nonneg (phi_nonneg members obs) (rho_nonneg s e)))]
  have herr : fabs (fsub (fmean (members.map (Rat.cast : ℚ → ℝ))) (some ((obs : ℚ) : ℝ)))
      = some ((|qmean members - obs| : ℚ) : ℝ) := by
    rw [fmean_cast _ h, fsub_some, fabs_some, ← Rat.cast_sub, ← Rat.cast_abs]
  rcases spread with _ | sq <;> rcases error with _ | eq <;>
    simp only [calculate_bciF, calculate_bci, Option.map_none', Option.map_some',
      Option.getD_some, Option.getD_none] <;>
    rw [phiF_cast members obs h] <;>
    simp only [fstd_cast members h, herr, rhoF_cast, hsqrt]

end BciVal
